import Mathlib

/-!
# Verification of the LaboratorioDFA automata

Shallow embedding of the C++ sources (`automata.h`, `automata.cpp` and the
completed implementation file): a generic DFA engine (`AbstractDFA`) with a
sparse transition table and an absorbing trap state, a word-recognizing
automaton (`WordDFA`) and a comment-recognizing automaton (`CommentDFA`)
with an overridden step function.

States are `Int` (C++ `int`): `initialState = 0`, `trapState = -1`.
The C++ `std::map<tpair,int>` transition table is embedded as an
association list with `List.lookup`; the maps built by both constructors
have pairwise distinct keys, so first-match lookup coincides with map
lookup.  Input characters (`char`) are embedded as `Char`; all characters
occurring in the automata are ASCII.
-/

/-- `initialState` of `AbstractDFA` (automata.h): the initial state, 0. -/
def initialState : Int := 0

/-- `trapState` of `AbstractDFA` (automata.h): the trap state, -1. -/
def trapState : Int := -1

/-- The `AbstractDFA` class (automata.h): number of states, current state,
transition table `(state, char) -> state`, and the vector of final states. -/
structure AbstractDFA where
  numStates : Int
  actState : Int
  transitionF : List ((Int × Char) × Int)
  finalStates : List Int
deriving Repr, DecidableEq

/-- The state transformation performed by `AbstractDFA::doStep` (the generic
engine): if the current state is not the trap state, look up
`(actState, letter)` in the transition table; move to the mapped state if
found, to the trap state otherwise.  In the trap state nothing changes. -/
def stepOn (m : List ((Int × Char) × Int)) (s : Int) (c : Char) : Int :=
  if s ≠ trapState then
    match List.lookup (s, c) m with
    | some t => t
    | none => trapState
  else s

/-- `AbstractDFA::doStep(char letter)`: mutates only `actState`, according
to `stepOn` over the instance's transition table. -/
def AbstractDFA.doStep (d : AbstractDFA) (letter : Char) : AbstractDFA :=
  { d with actState := stepOn d.transitionF d.actState letter }

/-- `AbstractDFA::reset()`: sets the current state back to the initial
state. -/
def AbstractDFA.reset (d : AbstractDFA) : AbstractDFA :=
  { d with actState := initialState }

/-- `AbstractDFA::isAccepting()` (completed implementation file): scan the
`finalStates` vector and return true on the first element equal to
`actState`, false if none is. -/
def AbstractDFA.isAccepting (d : AbstractDFA) : Bool :=
  d.finalStates.any (fun it => it == d.actState)

/-- `AbstractDFA::isAccepting()` as written in the stub variants in
`src/automata.cpp` (`return actState;`): the C++ int-to-bool conversion,
true iff the current state is nonzero. -/
def AbstractDFA.isAcceptingIntCast (d : AbstractDFA) : Bool :=
  d.actState != 0

/-- `AbstractDFA::run(const string&)` with the step function supplied
explicitly, reflecting C++ virtual dispatch on `doStep`: reset, then one
step per character in order, then report acceptance. -/
def runWith (step : AbstractDFA → Char → AbstractDFA)
    (d : AbstractDFA) (inputWord : List Char) : Bool :=
  (inputWord.foldl step d.reset).isAccepting

/-- `run` as executed on an `AbstractDFA` or `WordDFA` instance, where the
virtual `doStep` is the generic engine's. -/
def AbstractDFA.run (d : AbstractDFA) (inputWord : List Char) : Bool :=
  runWith AbstractDFA.doStep d inputWord

/-- The transition table built by the loop in `WordDFA::WordDFA`, with the
loop counter started at `base`: for each index `i`, the pair
`((base + i, word[i]), base + i + 1)`.  `wordTrans` below instantiates
`base = 0`, matching the C++ loop `for(int i = 0; i < word.length(); i++)`
inserting `((i, word[i]), i+1)`. -/
def wordTransAux (base : Nat) : List Char → List ((Int × Char) × Int)
  | [] => []
  | c :: cs => (((base : Int), c), (base : Int) + 1) :: wordTransAux (base + 1) cs

/-- The transition table of `WordDFA(word)`: `(i, word[i]) -> i+1` for each
`i < word.length()`. -/
def wordTrans (word : List Char) : List ((Int × Char) × Int) :=
  wordTransAux 0 word

/-- `WordDFA::WordDFA(const string& word)`: base constructor with
`word.length()+1` states, the linear transition chain, and
`word.length()` as the sole final state. -/
def WordDFA (word : List Char) : AbstractDFA :=
  { numStates := (word.length : Int) + 1
    actState := initialState
    transitionF := wordTrans word
    finalStates := [(word.length : Int)] }

/-- The transition table built by `CommentDFA::CommentDFA` (the flat
transitions; `\x7b` and `\x7d` are the brace characters). -/
def commentTrans : List ((Int × Char) × Int) :=
  [((0, '/'), 1), ((1, '/'), 2), ((2, '\n'), 3), ((0, '\x7b'), 4),
   ((4, '\x7d'), 3), ((0, '('), 5), ((5, '*'), 6), ((7, ')'), 3)]

/-- `CommentDFA::CommentDFA()`: base constructor with 8 states, the flat
transition table, and 3 as the sole final state. -/
def CommentDFA : AbstractDFA :=
  { numStates := 8
    actState := initialState
    transitionF := commentTrans
    finalStates := [3] }

/-- The state transformation of `CommentDFA::doStep`: the switch on the
current state.  Case 2: newline moves to 3, anything else leaves the state
(self-loop via `break`).  Case 4: `\x7d` moves to 3, else self-loop.
Case 6: `*` moves to 7, else self-loop.  Case 7: `)` moves to 3, any
character other than `*` moves to 6, `*` leaves the state at 7.  All other
states fall to the `default:` branch, the generic `AbstractDFA::doStep`
over the instance's table `m`. -/
def commentStepOn (m : List ((Int × Char) × Int)) (s : Int) (c : Char) : Int :=
  if s = 2 then (if c = '\n' then 3 else s)
  else if s = 4 then (if c = '\x7d' then 3 else s)
  else if s = 6 then (if c = '*' then 7 else s)
  else if s = 7 then (if c = ')' then 3 else if c ≠ '*' then 6 else s)
  else stepOn m s c

/-- `CommentDFA::doStep(char letter)`: the override; mutates only
`actState` according to `commentStepOn`. -/
def CommentDFA.doStep (d : AbstractDFA) (letter : Char) : AbstractDFA :=
  { d with actState := commentStepOn d.transitionF d.actState letter }

/-- `run` as executed on a `CommentDFA` instance: the inherited
`AbstractDFA::run` loop dispatching to the overridden `doStep`. -/
def CommentDFA.run (inputWord : List Char) : Bool :=
  runWith CommentDFA.doStep CommentDFA inputWord

/-- One call in an incremental usage session of an automaton: either
`reset()` or `doStep(c)` for a character `c`. -/
inductive DFAOp where
  | reset : DFAOp
  | step : Char → DFAOp
deriving Repr, DecidableEq

/-- Apply one `DFAOp` to an automaton, given its (possibly overridden)
step function. -/
def applyOp (stepF : AbstractDFA → Char → AbstractDFA)
    (d : AbstractDFA) : DFAOp → AbstractDFA
  | DFAOp.reset => d.reset
  | DFAOp.step c => stepF d c

/-- Apply a sequence of `reset`/`doStep` calls in order. -/
def applyOps (stepF : AbstractDFA → Char → AbstractDFA)
    (d : AbstractDFA) (ops : List DFAOp) : AbstractDFA :=
  ops.foldl (applyOp stepF) d

/-! ## Basic facts about the engine -/

/-- `doStep` updates only `actState`; folding it over an input is folding
`stepOn` over the states, with table and final states untouched. -/
theorem foldl_doStep (x : List Char) : ∀ d : AbstractDFA,
    x.foldl AbstractDFA.doStep d =
      { d with actState := x.foldl (stepOn d.transitionF) d.actState } := by
  induction x with
  | nil => intro d; rfl
  | cons c x ih =>
    intro d
    simp only [List.foldl_cons]
    rw [ih]
    rfl

/-- The overridden `CommentDFA::doStep` also updates only `actState`. -/
theorem foldl_commentDoStep (x : List Char) : ∀ d : AbstractDFA,
    x.foldl CommentDFA.doStep d =
      { d with actState := x.foldl (commentStepOn d.transitionF) d.actState } := by
  induction x with
  | nil => intro d; rfl
  | cons c x ih =>
    intro d
    simp only [List.foldl_cons]
    rw [ih]
    rfl

/-- The membership reading of `isAccepting` (completed variant). -/
theorem isAccepting_iff (d : AbstractDFA) :
    d.isAccepting = true ↔ d.actState ∈ d.finalStates := by
  unfold AbstractDFA.isAccepting
  rw [List.any_eq_true]
  constructor
  · rintro ⟨x, hx, hb⟩
    rw [beq_iff_eq] at hb
    rwa [hb] at hx
  · intro hm
    exact ⟨d.actState, hm, by simp⟩

/-- In the trap state the generic step is a no-op, for any table. -/
theorem stepOn_trap (m : List ((Int × Char) × Int)) (c : Char) :
    stepOn m trapState c = trapState := by
  simp [stepOn]

/-- In the trap state the comment step is a no-op, for any table. -/
theorem commentStepOn_trap (m : List ((Int × Char) × Int)) (c : Char) :
    commentStepOn m trapState c = trapState := by
  norm_num [commentStepOn, trapState, stepOn]

/-- Folding the generic step from the trap state stays in the trap state. -/
theorem foldl_stepOn_trap (m : List ((Int × Char) × Int)) :
    ∀ x : List Char, x.foldl (stepOn m) trapState = trapState := by
  intro x
  induction x with
  | nil => rfl
  | cons c x ih => simp [List.foldl_cons, stepOn_trap, ih]

/-- Folding the comment step from the trap state stays in the trap state. -/
theorem foldl_commentStepOn_trap (m : List ((Int × Char) × Int)) :
    ∀ x : List Char, x.foldl (commentStepOn m) trapState = trapState := by
  intro x
  induction x with
  | nil => rfl
  | cons c x ih => simp [List.foldl_cons, commentStepOn_trap, ih]

/-- A successful lookup returns a pair of the association list. -/
theorem lookup_mem {α β : Type} [BEq α] [LawfulBEq α]
    (l : List (α × β)) (k : α) (v : β)
    (h : List.lookup k l = some v) : (k, v) ∈ l := by
  induction l with
  | nil => simp [List.lookup] at h
  | cons p l ih =>
    obtain ⟨a, b⟩ := p
    rw [List.lookup] at h
    by_cases hk : (k == a) = true
    · rw [hk] at h
      simp only [Option.some.injEq] at h
      subst h
      rw [eq_of_beq hk]
      exact List.mem_cons_self _ _
    · rw [Bool.not_eq_true] at hk
      rw [hk] at h
      exact List.mem_cons_of_mem _ (ih h)

/-- `stepOn` with a successful lookup moves to the mapped state. -/
theorem stepOn_some (m : List ((Int × Char) × Int)) (s : Int) (c : Char) (t : Int)
    (hs : s ≠ trapState) (h : List.lookup (s, c) m = some t) :
    stepOn m s c = t := by
  simp [stepOn, hs, h]

/-- `stepOn` with a failed lookup moves to the trap state. -/
theorem stepOn_none (m : List ((Int × Char) × Int)) (s : Int) (c : Char)
    (hs : s ≠ trapState) (h : List.lookup (s, c) m = none) :
    stepOn m s c = trapState := by
  simp [stepOn, hs, h]

/-! ## The word automaton -/

/-- All keys of `wordTransAux b w` have state component at least `b`, so a
lookup with a smaller state fails. -/
theorem lookup_wordTransAux_lt (w : List Char) : ∀ (b : Nat) (n : Int) (c : Char),
    n < (b : Int) → List.lookup (n, c) (wordTransAux b w) = none := by
  induction w with
  | nil => intro b n c _; rfl
  | cons a as ih =>
    intro b n c h
    rw [wordTransAux, List.lookup]
    have hne : (((n, c) : Int × Char) == ((b : Int), a)) = false := by
      rw [beq_eq_false_iff_ne]
      intro he
      rw [Prod.mk.injEq] at he
      obtain ⟨h1, _⟩ := he
      omega
    rw [hne]
    exact ih (b + 1) n c (by omega)

/-- Lookup in the word table: from state `b + i`, character `c` advances to
`b + i + 1` exactly when `c` is the character of the word at index `i`. -/
theorem lookup_wordTransAux_char (w : List Char) : ∀ (b i : Nat) (c : Char),
    List.lookup ((b : Int) + (i : Int), c) (wordTransAux b w) =
      if w[i]? = some c then some ((b : Int) + (i : Int) + 1) else none := by
  induction w with
  | nil =>
    intro b i c
    simp [wordTransAux]
  | cons a as ih =>
    intro b i c
    match i with
    | 0 =>
      rw [wordTransAux, List.lookup]
      by_cases hca : c = a
      · subst hca
        have hb : ((((b : Int) + ((0 : Nat) : Int), c) : Int × Char) == ((b : Int), c)) = true := by
          rw [beq_iff_eq]
          rw [Prod.mk.injEq]
          constructor
          · omega
          · rfl
        rw [hb]
        simp only [List.getElem?_cons_zero, Option.some.injEq]
        rw [if_pos trivial]
        norm_num
      · have hb : ((((b : Int) + ((0 : Nat) : Int), c) : Int × Char) == ((b : Int), a)) = false := by
          rw [beq_eq_false_iff_ne]
          intro he
          rw [Prod.mk.injEq] at he
          exact hca he.2
        rw [hb]
        rw [lookup_wordTransAux_lt as (b + 1) _ c (by push_cast; omega)]
        simp only [List.getElem?_cons_zero, Option.some.injEq]
        rw [if_neg (fun h => hca h.symm)]
    | j + 1 =>
      rw [wordTransAux, List.lookup]
      have hb : ((((b : Int) + (((j : Nat) + 1 : Nat) : Int), c) : Int × Char) == ((b : Int), a)) = false := by
        rw [beq_eq_false_iff_ne]
        intro he
        rw [Prod.mk.injEq] at he
        obtain ⟨h1, _⟩ := he
        push_cast at h1
        omega
      rw [hb]
      have harr : (b : Int) + (((j : Nat) + 1 : Nat) : Int) = (((b + 1 : Nat) : Int)) + (j : Int) := by
        push_cast
        omega
      rw [harr]
      rw [ih (b + 1) j c]
      rw [List.getElem?_cons_succ]

/-- Running the generic engine over the word table from state `i`: the
state tracks the number of matched characters, and any deviation (or any
character past the end of the word) traps. -/
theorem foldl_stepOn_wordTrans (w : List Char) : ∀ (x : List Char) (i : Nat),
    i ≤ w.length →
    x.foldl (stepOn (wordTrans w)) (i : Int) =
      if x <+: w.drop i then ((i + x.length : Nat) : Int) else trapState := by
  intro x
  induction x with
  | nil =>
    intro i hi
    rw [List.foldl_nil, if_pos List.nil_prefix]
    simp
  | cons c x ih =>
    intro i hi
    have hl : List.lookup ((i : Int), c) (wordTrans w) =
        if w[i]? = some c then some ((i : Int) + 1) else none := by
      have h := lookup_wordTransAux_char w 0 i c
      simpa using h
    have hs : ((i : Nat) : Int) ≠ trapState := by
      unfold trapState
      omega
    by_cases hc : w[i]? = some c
    · have hstep : stepOn (wordTrans w) (i : Int) c = ((i + 1 : Nat) : Int) := by
        rw [stepOn_some _ _ _ _ hs (by rw [hl, if_pos hc])]
        push_cast
        omega
      rw [List.foldl_cons, hstep]
      obtain ⟨hlt, hgot⟩ := List.getElem?_eq_some.mp hc
      rw [ih (i + 1) (by omega)]
      have hdrop : w.drop i = c :: w.drop (i + 1) := by
        rw [← List.getElem_cons_drop w i hlt, hgot]
      rw [hdrop]
      by_cases hp : x <+: w.drop (i + 1)
      · rw [if_pos hp, if_pos (List.cons_prefix_cons.mpr ⟨rfl, hp⟩)]
        simp only [List.length_cons]
        congr 1
        omega
      · rw [if_neg hp, if_neg (fun h => hp (List.cons_prefix_cons.mp h).2)]
    · have hstep : stepOn (wordTrans w) (i : Int) c = trapState :=
        stepOn_none _ _ _ hs (by rw [hl, if_neg hc])
      rw [List.foldl_cons, hstep, foldl_stepOn_trap]
      rw [if_neg]
      intro hpre
      rcases Nat.lt_or_ge i w.length with hlt | hge
      · have hdrop : w.drop i = w[i] :: w.drop (i + 1) :=
          (List.getElem_cons_drop w i hlt).symm
        rw [hdrop, List.cons_prefix_cons] at hpre
        exact hc (List.getElem?_eq_some.mpr ⟨hlt, hpre.1.symm⟩)
      · have hiw : i = w.length := by omega
        rw [hiw, List.drop_length] at hpre
        have hn := List.prefix_nil.mp hpre
        simp at hn

/-- Characterization of `WordDFA(w).run`: acceptance exactly on the word
itself. -/
theorem wordDFA_run_char (w x : List Char) :
    (WordDFA w).run x = true ↔ x = w := by
  unfold AbstractDFA.run runWith
  rw [foldl_doStep, isAccepting_iff]
  simp only [AbstractDFA.reset, WordDFA, List.mem_singleton]
  have h0 : initialState = ((0 : Nat) : Int) := rfl
  rw [h0, foldl_stepOn_wordTrans w x 0 (by omega), List.drop_zero]
  by_cases hp : x <+: w
  · rw [if_pos hp]
    constructor
    · intro h
      exact hp.eq_of_length (by omega)
    · intro h
      subst h
      congr 1
      omega
  · rw [if_neg hp]
    constructor
    · intro h
      exfalso
      unfold trapState at h
      omega
    · intro h
      exact absurd (h ▸ List.prefix_refl x) hp

/-! ## The comment automaton -/

/-- No flat transition leaves the accepting state 3. -/
theorem lookup_commentTrans_three (c : Char) :
    List.lookup ((3 : Int), c) commentTrans = none := rfl

/-- From the accepting state 3, the comment step traps on any character. -/
theorem commentStepOn_three (c : Char) :
    commentStepOn commentTrans 3 c = trapState := by
  have h3 : List.lookup ((3 : Int), c) commentTrans = none :=
    lookup_commentTrans_three c
  norm_num [commentStepOn]
  exact stepOn_none _ _ _ (by unfold trapState; omega) h3

/-- Every state stored in the comment table lies between 0 and 7. -/
theorem commentTrans_lookup_bound (k : Int × Char) (v : Int)
    (h : List.lookup k commentTrans = some v) : 0 ≤ v ∧ v ≤ 7 := by
  have hm := lookup_mem _ _ _ h
  have hv : v ∈ commentTrans.map Prod.snd := List.mem_map_of_mem _ hm
  simp only [commentTrans, List.map_cons, List.map_nil, List.mem_cons,
    List.not_mem_nil, or_false] at hv
  rcases hv with h | h | h | h | h | h | h | h <;> omega

/-- `CommentDFA.run` at the state level: acceptance is the final fold state
being 3. -/
theorem commentRun_eq (x : List Char) :
    CommentDFA.run x =
      ((3 : Int) == x.foldl (commentStepOn commentTrans) initialState) := by
  unfold CommentDFA.run runWith
  rw [foldl_commentDoStep]
  simp [AbstractDFA.isAccepting, CommentDFA, AbstractDFA.reset]

/-- Every state stored in the word table lies between `b + 1` and
`b + length`. -/
theorem wordTransAux_mem_snd (w : List Char) : ∀ (b : Nat) (p : (Int × Char) × Int),
    p ∈ wordTransAux b w → ∃ j : Nat, j < w.length ∧ p.2 = ((b + j + 1 : Nat) : Int) := by
  induction w with
  | nil => intro b p hp; simp [wordTransAux] at hp
  | cons a as ih =>
    intro b p hp
    rw [wordTransAux, List.mem_cons] at hp
    rcases hp with hp | hp
    · refine ⟨0, by simp, ?_⟩
      rw [hp]
      push_cast
      ring
    · obtain ⟨j, hj, hv⟩ := ih (b + 1) p hp
      refine ⟨j + 1, by simp only [List.length_cons]; omega, ?_⟩
      rw [hv]
      push_cast
      ring

/-- One generic step over the word table keeps the state in range. -/
theorem wordStepOn_ok (w : List Char) (s : Int) (c : Char)
    (hs : s = trapState ∨ (0 ≤ s ∧ s ≤ (w.length : Int))) :
    stepOn (wordTrans w) s c = trapState ∨
      (0 ≤ stepOn (wordTrans w) s c ∧ stepOn (wordTrans w) s c ≤ (w.length : Int)) := by
  rcases hs with hs | hs
  · subst hs
    rw [stepOn_trap]
    left
    rfl
  · rcases hlook : List.lookup (s, c) (wordTrans w) with _ | v
    · rw [stepOn_none _ _ _ (by unfold trapState; omega) hlook]
      left
      rfl
    · rw [stepOn_some _ _ _ _ (by unfold trapState; omega) hlook]
      right
      obtain ⟨j, hj, hv⟩ := wordTransAux_mem_snd w 0 _ (lookup_mem _ _ _ hlook)
      have hv2 : v = ((0 + j + 1 : Nat) : Int) := hv
      rw [hv2]
      constructor <;> (push_cast; omega)

/-- One comment step keeps the state in range 0..7 (or trap). -/
theorem commentStepOn_ok (s : Int) (c : Char)
    (hs : s = trapState ∨ (0 ≤ s ∧ s ≤ 7)) :
    commentStepOn commentTrans s c = trapState ∨
      (0 ≤ commentStepOn commentTrans s c ∧ commentStepOn commentTrans s c ≤ 7) := by
  rcases hs with hs | hs
  · subst hs
    rw [commentStepOn_trap]
    left
    rfl
  · unfold commentStepOn
    split_ifs
    all_goals try (right; constructor <;> omega)
    rcases hlook : List.lookup (s, c) commentTrans with _ | v
    · rw [stepOn_none _ _ _ (by unfold trapState; omega) hlook]
      left
      rfl
    · rw [stepOn_some _ _ _ _ (by unfold trapState; omega) hlook]
      right
      exact commentTrans_lookup_bound _ _ hlook

/-! ## Invariant preservation over call sequences -/

/-- A predicate preserved by each step is preserved by a left fold. -/
theorem foldl_inv {α β : Type} (P : α → Prop) (f : α → β → α)
    (hstep : ∀ a b, P a → P (f a b)) :
    ∀ (l : List β) (a : α), P a → P (l.foldl f a) := by
  intro l
  induction l with
  | nil => intro a ha; exact ha
  | cons b l ih =>
    intro a ha
    exact ih _ (hstep a b ha)

/-- Any single `reset`/`doStep` call on a word automaton keeps the table
fixed and the state in range. -/
theorem wordInv_preserved (w : List Char) (d : AbstractDFA) (op : DFAOp)
    (h : d.transitionF = wordTrans w ∧
      (d.actState = trapState ∨ (0 ≤ d.actState ∧ d.actState ≤ (w.length : Int)))) :
    (applyOp AbstractDFA.doStep d op).transitionF = wordTrans w ∧
      ((applyOp AbstractDFA.doStep d op).actState = trapState ∨
        (0 ≤ (applyOp AbstractDFA.doStep d op).actState ∧
          (applyOp AbstractDFA.doStep d op).actState ≤ (w.length : Int))) := by
  obtain ⟨htab, hst⟩ := h
  cases op with
  | reset =>
    refine ⟨htab, Or.inr ⟨le_refl 0, ?_⟩⟩
    show (0 : Int) ≤ (w.length : Int)
    omega
  | step c =>
    refine ⟨htab, ?_⟩
    have h2 := wordStepOn_ok w d.actState c hst
    rw [← htab] at h2
    exact h2

/-- Any single `reset`/`doStep` call on the comment automaton keeps the
table fixed and the state in range. -/
theorem commentInv_preserved (d : AbstractDFA) (op : DFAOp)
    (h : d.transitionF = commentTrans ∧
      (d.actState = trapState ∨ (0 ≤ d.actState ∧ d.actState ≤ 7))) :
    (applyOp CommentDFA.doStep d op).transitionF = commentTrans ∧
      ((applyOp CommentDFA.doStep d op).actState = trapState ∨
        (0 ≤ (applyOp CommentDFA.doStep d op).actState ∧
          (applyOp CommentDFA.doStep d op).actState ≤ 7)) := by
  obtain ⟨htab, hst⟩ := h
  cases op with
  | reset =>
    refine ⟨htab, Or.inr ⟨le_refl 0, ?_⟩⟩
    show (0 : Int) ≤ 7
    omega
  | step c =>
    refine ⟨htab, ?_⟩
    have h2 := commentStepOn_ok d.actState c hst
    rw [← htab] at h2
    exact h2

/-! ## Claims -/

/-- C1: for every word `w` and every input `x`, `WordDFA(w).run(x)` returns
true if and only if `x = w`; in particular `run(w)` is true and `run(x)` is
false for every other `x` (proper prefixes, proper extensions and
permutations of `w` included). -/
theorem C1_wordDFA_recognizes_exactly (w x : List Char) :
    (WordDFA w).run x = true ↔ x = w :=
  wordDFA_run_char w x

/-- C2: the comment automaton's `run` on the eight listed inputs: the four
well formed comments accept and the four malformed inputs reject. -/
theorem C2_comment_examples :
    CommentDFA.run "// comment\n".toList = true ∧
    CommentDFA.run "\x7b comment \x7d".toList = true ∧
    CommentDFA.run "(* comment *)".toList = true ∧
    CommentDFA.run "(* a ** b *)".toList = true ∧
    CommentDFA.run "// unterminated".toList = false ∧
    CommentDFA.run "\x7b unterminated".toList = false ∧
    CommentDFA.run "(* unterminated".toList = false ∧
    CommentDFA.run "not a comment".toList = false := by
  decide

/-- C3: for every automaton value (any current state, table and accepting
set, hence in particular every `WordDFA` and `CommentDFA` configuration),
`isAccepting()` returns true iff the current state is a member of the
accepting set.  In this embedding `isAccepting` is a function of the
automaton returning only a `Bool`, so it mutates neither the state nor any
other field. -/
theorem C3_isAccepting_membership (d : AbstractDFA) :
    d.isAccepting = true ↔ d.actState ∈ d.finalStates :=
  isAccepting_iff d

/-- C4: trap absorption.  If the current state is the trap state, then one
step — by the generic engine or by the comment override — leaves it at the
trap state for every character, and hence every continuation (fold of
either step function over any further input) stays at the trap state. -/
theorem C4_trap_absorption (d : AbstractDFA) (h : d.actState = trapState) :
    (∀ c : Char, (d.doStep c).actState = trapState ∧
      (CommentDFA.doStep d c).actState = trapState) ∧
    (∀ x : List Char, (x.foldl AbstractDFA.doStep d).actState = trapState ∧
      (x.foldl CommentDFA.doStep d).actState = trapState) := by
  constructor
  · intro c
    constructor
    · show stepOn d.transitionF d.actState c = trapState
      rw [h, stepOn_trap]
    · show commentStepOn d.transitionF d.actState c = trapState
      rw [h, commentStepOn_trap]
  · intro x
    constructor
    · rw [foldl_doStep]
      show x.foldl (stepOn d.transitionF) d.actState = trapState
      rw [h, foldl_stepOn_trap]
    · rw [foldl_commentDoStep]
      show x.foldl (commentStepOn d.transitionF) d.actState = trapState
      rw [h, foldl_commentStepOn_trap]

/-- Witness for C4 at the trapped comment automaton and the continuation
`"ab"`. -/
theorem C4_trap_absorption_witness :
    ({ CommentDFA with actState := trapState } : AbstractDFA).actState = trapState ∧
    ("ab".toList.foldl CommentDFA.doStep
      { CommentDFA with actState := trapState }).actState = trapState ∧
    ("ab".toList.foldl AbstractDFA.doStep
      { CommentDFA with actState := trapState }).actState = trapState :=
  ⟨rfl,
   ((C4_trap_absorption { CommentDFA with actState := trapState } rfl).2 "ab".toList).2,
   ((C4_trap_absorption { CommentDFA with actState := trapState } rfl).2 "ab".toList).1⟩

/-- C5: in state 7, the comment step moves to 3 on a closing parenthesis,
stays in 7 on an asterisk, and moves to 6 on every other character. -/
theorem C5_comment_state7 (d : AbstractDFA) (c : Char) (h : d.actState = 7) :
    (CommentDFA.doStep d c).actState =
      if c = ')' then 3 else if c = '*' then 7 else 6 := by
  show commentStepOn d.transitionF d.actState c = _
  rw [h]
  unfold commentStepOn
  norm_num

/-- Witness for C5: in state 7 the character `x` (neither `)` nor `*`)
moves to state 6. -/
theorem C5_comment_state7_witness :
    ({ CommentDFA with actState := 7 } : AbstractDFA).actState = 7 ∧
    (CommentDFA.doStep { CommentDFA with actState := 7 } 'x').actState = 6 := by
  refine ⟨rfl, ?_⟩
  have h := C5_comment_state7 { CommentDFA with actState := 7 } 'x' rfl
  simpa using h

/-- C6: the accepting state 3 of the comment automaton is strict, not
absorbing-accepting: from state 3 any character routes to the trap state
(the table has no transition out of 3), hence for every accepted string `s`
and nonempty suffix `t`, `run(s ++ t)` is false. -/
theorem C6_comment_state3_strict :
    (∀ (d : AbstractDFA) (c : Char), d.transitionF = commentTrans →
      d.actState = 3 → (CommentDFA.doStep d c).actState = trapState) ∧
    (∀ s t : List Char, CommentDFA.run s = true → t ≠ [] →
      CommentDFA.run (s ++ t) = false) := by
  constructor
  · intro d c htab h3
    show commentStepOn d.transitionF d.actState c = trapState
    rw [htab, h3, commentStepOn_three]
  · intro s t hs ht
    rw [commentRun_eq] at hs ⊢
    have hs3 : s.foldl (commentStepOn commentTrans) initialState = 3 :=
      (eq_of_beq hs).symm
    cases t with
    | nil => exact absurd rfl ht
    | cons c t' =>
      rw [List.foldl_append, hs3, List.foldl_cons, commentStepOn_three,
        foldl_commentStepOn_trap]
      rfl

/-- Witness for C6: one step from state 3 traps, and the accepted comment
`"(**)"` followed by a further `)` is rejected. -/
theorem C6_comment_state3_strict_witness :
    (CommentDFA.doStep { CommentDFA with actState := 3 } 'a').actState = trapState ∧
    CommentDFA.run "(**)".toList = true ∧
    CommentDFA.run ("(**)".toList ++ [')']) = false :=
  ⟨C6_comment_state3_strict.1 { CommentDFA with actState := 3 } 'a' rfl rfl,
   by decide,
   C6_comment_state3_strict.2 "(**)".toList [')'] (by decide) (by decide)⟩

/-- C7: for the empty word, state 0 is both the initial state and the sole
accepting state, the empty input is accepted, and every nonempty input is
rejected. -/
theorem C7_wordDFA_empty (x : List Char) (hx : x ≠ []) :
    (WordDFA []).finalStates = [0] ∧
    (WordDFA []).actState = initialState ∧
    (WordDFA []).run [] = true ∧
    (WordDFA []).run x = false := by
  refine ⟨rfl, rfl, (wordDFA_run_char [] []).mpr rfl, ?_⟩
  cases hb : (WordDFA []).run x with
  | false => rfl
  | true => exact absurd ((wordDFA_run_char [] x).mp hb) hx

/-- Witness for C7 at the nonempty input `"a"`. -/
theorem C7_wordDFA_empty_witness :
    (['a'] : List Char) ≠ [] ∧
    (WordDFA []).run ['a'] = false ∧
    (WordDFA []).run [] = true :=
  ⟨by decide,
   (C7_wordDFA_empty ['a'] (by decide)).2.2.2,
   (C7_wordDFA_empty ['a'] (by decide)).2.2.1⟩

/-- C8: the declared state count does not influence observable behaviour.
For two automata agreeing on everything except possibly `numStates`,
`reset`, both step functions, `isAccepting` and both `run`s produce
identical states and identical booleans on every input. -/
theorem C8_numStates_irrelevant (d₁ d₂ : AbstractDFA)
    (ha : d₁.actState = d₂.actState) (ht : d₁.transitionF = d₂.transitionF)
    (hf : d₁.finalStates = d₂.finalStates) :
    d₁.reset.actState = d₂.reset.actState ∧
    (∀ c : Char, (d₁.doStep c).actState = (d₂.doStep c).actState ∧
      (CommentDFA.doStep d₁ c).actState = (CommentDFA.doStep d₂ c).actState) ∧
    d₁.isAccepting = d₂.isAccepting ∧
    (∀ x : List Char, d₁.run x = d₂.run x ∧
      runWith CommentDFA.doStep d₁ x = runWith CommentDFA.doStep d₂ x) := by
  refine ⟨rfl, ?_, ?_, ?_⟩
  · intro c
    constructor
    · show stepOn d₁.transitionF d₁.actState c = stepOn d₂.transitionF d₂.actState c
      rw [ha, ht]
    · show commentStepOn d₁.transitionF d₁.actState c =
        commentStepOn d₂.transitionF d₂.actState c
      rw [ha, ht]
  · show d₁.finalStates.any (fun it => it == d₁.actState) =
      d₂.finalStates.any (fun it => it == d₂.actState)
    rw [ha, hf]
  · intro x
    constructor
    · unfold AbstractDFA.run runWith
      rw [foldl_doStep, foldl_doStep]
      show d₁.finalStates.any (fun it => it == x.foldl (stepOn d₁.transitionF) initialState) =
        d₂.finalStates.any (fun it => it == x.foldl (stepOn d₂.transitionF) initialState)
      rw [ht, hf]
    · unfold runWith
      rw [foldl_commentDoStep, foldl_commentDoStep]
      show d₁.finalStates.any
          (fun it => it == x.foldl (commentStepOn d₁.transitionF) initialState) =
        d₂.finalStates.any
          (fun it => it == x.foldl (commentStepOn d₂.transitionF) initialState)
      rw [ht, hf]

/-- Witness for C8: the comment automaton and a copy declaring 99 states
agree on `run("(* a *)")`. -/
theorem C8_numStates_irrelevant_witness :
    ({ CommentDFA with numStates := 99 } : AbstractDFA).actState = CommentDFA.actState ∧
    runWith CommentDFA.doStep CommentDFA "(* a *)".toList =
      runWith CommentDFA.doStep { CommentDFA with numStates := 99 } "(* a *)".toList :=
  ⟨rfl,
   ((C8_numStates_irrelevant CommentDFA { CommentDFA with numStates := 99 }
      rfl rfl rfl).2.2.2 "(* a *)".toList).2⟩

/-- C9: state-range invariant.  After construction and after any sequence
of `reset`/`doStep` calls, the word automaton's state is trap or in
`0..numStates-1` (with `numStates = length w + 1`), and likewise the
comment automaton's state is trap or in `0..7`. -/
theorem C9_state_range (w : List Char) (ops : List DFAOp) :
    ((applyOps AbstractDFA.doStep (WordDFA w) ops).actState = trapState ∨
      (0 ≤ (applyOps AbstractDFA.doStep (WordDFA w) ops).actState ∧
        (applyOps AbstractDFA.doStep (WordDFA w) ops).actState ≤
          (WordDFA w).numStates - 1)) ∧
    ((applyOps CommentDFA.doStep CommentDFA ops).actState = trapState ∨
      (0 ≤ (applyOps CommentDFA.doStep CommentDFA ops).actState ∧
        (applyOps CommentDFA.doStep CommentDFA ops).actState ≤
          CommentDFA.numStates - 1)) := by
  constructor
  · have h := foldl_inv
      (fun d : AbstractDFA => d.transitionF = wordTrans w ∧
        (d.actState = trapState ∨ (0 ≤ d.actState ∧ d.actState ≤ (w.length : Int))))
      (applyOp AbstractDFA.doStep)
      (fun d op hd => wordInv_preserved w d op hd)
      ops (WordDFA w) ⟨rfl, Or.inr ⟨le_refl 0, by show (0 : Int) ≤ (w.length : Int); omega⟩⟩
    rcases h.2 with h2 | h2
    · exact Or.inl h2
    · refine Or.inr ⟨h2.1, ?_⟩
      show (ops.foldl (applyOp AbstractDFA.doStep) (WordDFA w)).actState ≤
        (w.length : Int) + 1 - 1
      omega
  · have h := foldl_inv
      (fun d : AbstractDFA => d.transitionF = commentTrans ∧
        (d.actState = trapState ∨ (0 ≤ d.actState ∧ d.actState ≤ 7)))
      (applyOp CommentDFA.doStep)
      (fun d op hd => commentInv_preserved d op hd)
      ops CommentDFA ⟨rfl, Or.inr ⟨le_refl 0, by show (0 : Int) ≤ 7; omega⟩⟩
    rcases h.2 with h2 | h2
    · exact Or.inl h2
    · refine Or.inr ⟨h2.1, ?_⟩
      show (ops.foldl (applyOp CommentDFA.doStep) CommentDFA).actState ≤ (8 : Int) - 1
      omega

/-- C10: the two `isAccepting` variants present in the sources do NOT agree
for every current state and accepting set.  At current state 1 with
accepting set `[3]` (the comment automaton right after consuming `/`), the
`src/automata.cpp` stub `return actState;` converts the nonzero int 1 to
true, while the membership-checking variant returns false. -/
theorem C10_isAccepting_variants_diverge :
    AbstractDFA.isAcceptingIntCast { CommentDFA with actState := 1 } = true ∧
    AbstractDFA.isAccepting { CommentDFA with actState := 1 } = false := by
  decide
